import Mathlib

/-!
Verification of the `NoLossTokenizer` event/token codec from
`midi_tokenizers/no_loss_tokenizer.py`.

The Python code is shallowly embedded as follows.

* Vocabulary symbols (`"<CLS>"`, `"NOTE_ON_p"`, `"NOTE_OFF_p"`, `"VELOCITY_b"`,
  `"kT"`) are in bijection with the inductive type `Token`; the substring tests
  (`"NOTE_ON" in token`, the `.T$` regex, ...) performed by the source on such
  strings classify a token exactly by its class, which the embedding does by
  pattern matching.
* Python floats are modelled by `ℚ`.  All quantities manipulated by the codec
  (`eps`, the rungs `eps * 2^k`, the running sums of rungs, velocities and bin
  edges) are obtained from the inputs by additions, halvings and doublings, so
  the rational model reproduces the float computation exactly on dyadic inputs
  (in particular at every concrete counterexample used below).
* `while` loops are modelled with an explicit fuel argument; `none` means the
  loop did not finish within the given fuel, so non-termination of the source
  loop corresponds to the function returning `none` for every fuel.
* Exceptions (`KeyError` / `IndexError`) are modelled with `Option`: a failing
  lookup makes the enclosing modelled call return `none`.
* Python dict lookups are association-list lookups; numpy arrays are lists.
* `quantize_frame` mutates the caller-supplied dataframe in place (it adds the
  `velocity_bin` column).  `tokenizeNotes` therefore returns a pair: the token
  output together with the note collection as the caller observes it after the
  call (the two alias the same object in Python).
-/

namespace MidiQuantizers

/-- One vocabulary symbol.  `cls` is `"<CLS>"`, `noteOn p` is `"NOTE_ON_p"`,
`noteOff p` is `"NOTE_OFF_p"`, `velocity b` is `"VELOCITY_b"` and `timeT k` is
the time token `"kT"`. -/
inductive Token where
  | cls : Token
  | noteOn (pitch : ℕ) : Token
  | noteOff (pitch : ℕ) : Token
  | velocity (bin : ℕ) : Token
  | timeT (k : ℕ) : Token
deriving DecidableEq

/-- A token drawn from the vocabulary has its pitch in the supported MIDI range
`[21, 108]` (`_build_vocab` only creates note tokens for those pitches). -/
def Token.wfPitch : Token → Prop
  | .noteOn p => 21 ≤ p ∧ p ≤ 108
  | .noteOff p => 21 ≤ p ∧ p ≤ 108
  | _ => True

instance (t : Token) : Decidable t.wfPitch := by
  unfold Token.wfPitch; cases t <;> infer_instance

/-- `_time_vocab`'s `while dt < 1` loop: starting from `dt = eps` and `dt_it =
it`, emit `(dt_it, dt)` pairs (the token `"dt_itT"` together with its duration)
while `dt < 1`, doubling `dt` each iteration.  `none` models running out of
fuel, i.e. a non-terminating loop. -/
def timeVocabAux : ℕ → ℚ → ℕ → Option (List (ℕ × ℚ))
  | 0, dt, _ => if dt < 1 then none else some []
  | fuel + 1, dt, it =>
      if dt < 1 then (timeVocabAux fuel (2 * dt) (it + 1)).map (fun r => (it, dt) :: r)
      else some []

/-- `np.linspace(0, 127, num=n, endpoint=True).astype(int)`: `n` evenly spaced
values from 0 to 127 inclusive, truncated to integers.  Note the source passes
`num=n_velocity_bins`, producing `n_velocity_bins` edges. -/
def velocityBinEdges (n : ℕ) : List ℕ :=
  match n with
  | 0 => []
  | 1 => [0]
  | _ => (List.range n).map fun i => 127 * i / (n - 1)

/-- `_build_velocity_decoder`: midpoint `int((e[i-1] + e[i]) / 2)` of each pair
of consecutive edges. -/
def buildVelocityDecoder (edges : List ℕ) : List ℕ :=
  (edges.zip edges.tail).map fun p => (p.1 + p.2) / 2

/-- `np.digitize(v, edges) - 1`: the number of edges `≤ v`, minus one.  (For
`v ≥ 0` and a nonempty edge array starting at 0 the count is at least 1, so the
ℕ subtraction is exact.) -/
def digitizeBin (edges : List ℕ) (v : ℕ) : ℕ :=
  edges.countP (fun e => decide (e ≤ v)) - 1

/-- The tokenizer state built by `__init__` / `_build_vocab`.  `timeVocab`
holds the `(dt_it, dt)` ladder produced by `_time_vocab`; the pitch and
velocity lookup tables are total functions of the `Token` constructors and
need no fields. -/
structure Codec where
  eps : ℚ
  nbins : ℕ
  timeVocab : List (ℕ × ℚ)
  maxTimeValue : ℚ
  edges : List ℕ
  binToVelocity : List ℕ
deriving DecidableEq

/-- `NoLossTokenizer.__init__(eps, n_velocity_bins)`.  The outer `Option` is
fuel for `_time_vocab`'s loop (`none` = the loop does not terminate); the inner
`Option` is `none` when construction raises (the `time_vocab[-1]` lookup on an
empty time vocabulary is an `IndexError`).  The base-class initializer
(`midi_tokenizers/midi_tokenizer.py`, not part of the codec per the spec) is
modelled as a no-op. -/
def mkTokenizer (eps : ℚ) (nbins : ℕ) (fuel : ℕ) : Option (Option Codec) :=
  match timeVocabAux fuel eps 1 with
  | none => none
  | some [] => some none
  | some (e :: tv) =>
      some (some
        { eps := eps
          nbins := nbins
          timeVocab := e :: tv
          maxTimeValue := ((e :: tv).getLast (List.cons_ne_nil e tv)).2
          edges := velocityBinEdges nbins
          binToVelocity := buildVelocityDecoder (velocityBinEdges nbins) })

/-- `self.dt_to_token[dt]`: look the duration up in the time vocabulary. -/
def dtToToken (tv : List (ℕ × ℚ)) (dt : ℚ) : Option Token :=
  (tv.find? fun p => decide (p.2 = dt)).map fun p => Token.timeT p.1

/-- `self.token_to_dt[token]`: duration of a time token. -/
def tokenToDt (tv : List (ℕ × ℚ)) : Token → Option ℚ
  | .timeT k => (tv.find? fun p => decide (p.1 = k)).map fun p => p.2
  | _ => none

/-- One iteration of `tokenize_time_distance`'s `while True` loop, with fuel:
break when `|dt - filling_dt| < eps`; halve `current_step` when it would
overshoot by more than `eps`; otherwise emit the token for `current_step` and
add it to `filling_dt`.  `none` models both fuel exhaustion (the loop has not
terminated) and a `KeyError` on the `dt_to_token` lookup. -/
def tokenizeTimeDistanceAux (c : Codec) (dt : ℚ) :
    ℕ → ℚ → ℚ → List Token → Option (List Token)
  | 0, _, _, _ => none
  | fuel + 1, step, filling, acc =>
      if |dt - filling| < c.eps then some acc
      else if filling + step - dt > c.eps then
        tokenizeTimeDistanceAux c dt fuel (step / 2) filling acc
      else
        match dtToToken c.timeVocab step with
        | none => none
        | some tok => tokenizeTimeDistanceAux c dt fuel step (filling + step) (acc ++ [tok])

/-- `tokenize_time_distance(dt)`: greedily decompose `dt` into ladder rungs,
starting from `max_time_value`. -/
def tokenizeTimeDistance (c : Codec) (fuel : ℕ) (dt : ℚ) : Option (List Token) :=
  tokenizeTimeDistanceAux c dt fuel c.maxTimeValue 0 []

/-- A note record (one dataframe row).  `velocityBin` is the `velocity_bin`
column: `none` when the column is absent, `some b` after `quantize_frame` has
filled it. -/
structure NoteRow where
  pitch : ℕ
  start : ℚ
  noteEnd : ℚ
  velocity : ℕ
  velocityBin : Option ℕ
deriving DecidableEq

/-- `quantize_frame`: set the `velocity_bin` column of every row (an in-place
mutation of the caller's dataframe in the source). -/
def quantizeFrame (c : Codec) (df : List NoteRow) : List NoteRow :=
  df.map fun r => { r with velocityBin := some (digitizeBin c.edges r.velocity) }

inductive EventKind where
  | noteOnK : EventKind
  | noteOffK : EventKind
deriving DecidableEq

/-- An on/off event derived from a note row by `_notes_to_events`. -/
structure Event where
  time : ℚ
  pitch : ℕ
  velocityBin : ℕ
  kind : EventKind
deriving DecidableEq

/-- The OFF event of a row (`time = end`).  A missing `velocity_bin` column
defaults to 0; `tokenize` always quantizes first, making the column present. -/
def noteOffEvent (r : NoteRow) : Event :=
  { time := r.noteEnd, pitch := r.pitch, velocityBin := r.velocityBin.getD 0,
    kind := .noteOffK }

/-- The ON event of a row (`time = start`). -/
def noteOnEvent (r : NoteRow) : Event :=
  { time := r.start, pitch := r.pitch, velocityBin := r.velocityBin.getD 0,
    kind := .noteOnK }

/-- Stable insertion (by a rational key) of `x` into `l`: `x` goes before the
first element whose key is `≥ key x`, so equal keys keep input order. -/
def insertK (key : α → ℚ) (x : α) : List α → List α
  | [] => [x]
  | y :: ys => if key x ≤ key y then x :: y :: ys else y :: insertK key x ys

/-- Stable sort by a rational key, modelling Python's stable `sorted(...,
key=...)`. -/
def sortK (key : α → ℚ) : List α → List α
  | [] => []
  | x :: xs => insertK key x (sortK key xs)

/-- `_notes_to_events`: OFF events first, then ON events, stably sorted by
`time` (so at equal times every OFF precedes every ON, and events of the same
kind keep the input row order). -/
def notesToEvents (df : List NoteRow) : List Event :=
  sortK (fun e => e.time) (df.map noteOffEvent ++ df.map noteOnEvent)

/-- The on/off symbol appended for an event in `tokenize`. -/
def eventKindTok (e : Event) : Token :=
  match e.kind with
  | .noteOnK => .noteOn e.pitch
  | .noteOffK => .noteOff e.pitch

/-- The per-event loop of `tokenize`: for each event emit the time tokens of
the gap since the previous event, then the event's velocity token, then its
on/off token. -/
def tokenizeEventsAux (c : Codec) (fuel : ℕ) : ℚ → List Event → Option (List Token)
  | _, [] => some []
  | prev, e :: es =>
      (tokenizeTimeDistance c fuel (e.time - prev)).bind fun tt =>
        (tokenizeEventsAux c fuel e.time es).map fun rest =>
          tt ++ Token.velocity e.velocityBin :: eventKindTok e :: rest

/-- `tokenize(notes)`.  The second component is the note collection as the
caller observes it after the call: `quantize_frame` mutates the caller's
dataframe (same object), so it is `quantizeFrame c df`, not `df`. -/
def tokenizeNotes (c : Codec) (fuel : ℕ) (df : List NoteRow) :
    Option (List Token) × List NoteRow :=
  let q := quantizeFrame c df
  (tokenizeEventsAux c fuel 0 (notesToEvents q), q)

/-- State of `fix_token_sequences`' scan: the most recent velocity token
(initially `VELOCITY_0`), the `pressed` array (size 110, `none` is the `-1`
sentinel), and the tokens prepended so far (most recent orphan first, exactly
the prefix `tokens` will carry). -/
structure FixState where
  cv : Token
  pressed : List (Option ℕ)
  pre : List Token
deriving DecidableEq

/-- `token_to_velocity_bin[cv]` for the tracked velocity token (always a
`VELOCITY_b` token in reachable states). -/
def tokenVelBin : Token → ℕ
  | .velocity b => b
  | _ => 0

def fixInit : FixState :=
  { cv := Token.velocity 0, pressed := List.replicate 110 none, pre := [] }

/-- One step of the scan in `fix_token_sequences`: a velocity token updates the
tracked velocity; `NOTE_ON_p` marks `p` pressed at the tracked velocity's bin;
`NOTE_OFF_p` prepends a synthetic `[velocity, NOTE_ON_p]` pair when `p` is not
pressed, and always marks `p` unpressed. -/
def fixStep (s : FixState) (t : Token) : FixState :=
  match t with
  | .velocity _ => { s with cv := t }
  | .noteOn p => { s with pressed := s.pressed.set p (some (tokenVelBin s.cv)) }
  | .noteOff p =>
      if s.pressed.getD p none = none then
        { s with pre := s.cv :: Token.noteOn p :: s.pre,
                 pressed := s.pressed.set p none }
      else { s with pressed := s.pressed.set p none }
  | _ => s

/-- The final loop of `fix_token_sequences`: for every key still pressed,
append a `[velocity, NOTE_OFF_key]` pair, keys in ascending order. -/
def fixAppends (pressed : List (Option ℕ)) : List Token :=
  ((List.range 110).map fun k =>
    match pressed.getD k none with
    | some b => [Token.velocity b, Token.noteOff k]
    | none => []).flatten

/-- `fix_token_sequences(tokens)`.  The `for token in tokens` loop iterates
over the original list (rebinding `tokens` inside the loop does not change the
iterator), so the result is: all prepended pairs, then the original tokens,
then the appended pairs. -/
def fixTokenSequences (tokens : List Token) : List Token :=
  let s := tokens.foldl fixStep fixInit
  s.pre ++ tokens ++ fixAppends s.pressed

/-- A reconstructed ON record of `untokenize`. -/
structure OnRec where
  pitch : ℕ
  start : ℚ
  velocity : ℕ
deriving DecidableEq

/-- A reconstructed OFF record of `untokenize`. -/
structure OffRec where
  pitch : ℕ
  nend : ℚ
deriving DecidableEq

/-- State of `untokenize`'s token walk. -/
structure ParseState where
  time : ℚ
  vel : ℕ
  ons : List OnRec
  offs : List OffRec
deriving DecidableEq

/-- One step of `untokenize`'s walk: time tokens advance `current_time`,
velocity tokens set `current_velocity` via `bin_to_velocity` (an out-of-range
bin is an `IndexError`, modelled by `none`), on/off tokens record events. -/
def parseStep (c : Codec) (s : ParseState) (t : Token) : Option ParseState :=
  match t with
  | .timeT k => (tokenToDt c.timeVocab (.timeT k)).map fun d => { s with time := s.time + d }
  | .velocity b => (c.binToVelocity.get? b).map fun v => { s with vel := v }
  | .noteOn p => some { s with ons := s.ons ++ [{ pitch := p, start := s.time, velocity := s.vel }] }
  | .noteOff p => some { s with offs := s.offs ++ [{ pitch := p, nend := s.time }] }
  | .cls => some s

def parseTokens (c : Codec) (ts : List Token) : Option ParseState :=
  ts.foldlM (parseStep c) { time := 0, vel := 0, ons := [], offs := [] }

/-- `untokenize(tokens)`: repair, walk, stable-sort both record lists by pitch,
pair them positionally, sort by start.  (The source pairs the two pandas frames
by index; the model uses `zipWith`, which agrees whenever the lists have equal
length — the only case exercised here.  The final `sort_values(by="start")` is
modelled stable; the source leaves the order of equal starts unspecified.) -/
def untokenize (c : Codec) (ts : List Token) : Option (List NoteRow) :=
  (parseTokens c (fixTokenSequences ts)).map fun st =>
    let ons := sortK (fun r => (r.pitch : ℚ)) st.ons
    let offs := sortK (fun r => (r.pitch : ℚ)) st.offs
    sortK (fun r => r.start)
      (ons.zipWith (fun a b =>
        { pitch := a.pitch, start := a.start, noteEnd := b.nend,
          velocity := a.velocity, velocityBin := none }) offs)

/-- `untokenize` with the caller's token list as the second component: the
source never mutates the list object it receives (all updates rebind a local
name), so the pair's second component is the unchanged input. -/
def untokenizePair (c : Codec) (ts : List Token) : Option (List NoteRow) × List Token :=
  (untokenize c ts, ts)

/-! ### Well-formed codecs and the shape of the time-token ladder -/

/-- A codec state as `__init__` builds it for `eps ∈ (0,1)`: the time
vocabulary is the geometric ladder `dt_k = eps * 2^(k-1)` for `k = 1..K`,
terminated at the largest `K` with `dt_K < 1`, and `max_time_value = dt_K`. -/
def Codec.WF (c : Codec) : Prop :=
  0 < c.eps ∧ c.eps < 1 ∧
  ∃ K : ℕ, 1 ≤ K ∧
    c.timeVocab = (List.range K).map (fun j => (j + 1, c.eps * 2 ^ j)) ∧
    c.maxTimeValue = c.eps * 2 ^ (K - 1) ∧
    c.eps * 2 ^ (K - 1) < 1 ∧ 1 ≤ c.eps * 2 ^ K

/-- The `eps = 1/4`, `n_velocity_bins = 2` tokenizer (its time ladder is
`1T ↦ 1/4`, `2T ↦ 1/2`). -/
def codecQ : Codec :=
  { eps := 1/4, nbins := 2, timeVocab := [(1, 1/4), (2, 1/2)], maxTimeValue := 1/2,
    edges := velocityBinEdges 2, binToVelocity := buildVelocityDecoder (velocityBinEdges 2) }

/-- A note collection on which `tokenize` mutates the caller's dataframe. -/
def notesC9 : List NoteRow :=
  [{ pitch := 60, start := 0, noteEnd := 1, velocity := 64, velocityBin := none }]

/-- Erase the `velocity_bin` column. -/
def stripBin (r : NoteRow) : NoteRow := { r with velocityBin := none }

/-- A valid single-note collection on which `tokenize` never terminates
(its gap `3/4` is `3 * eps` for `eps = 1/4`). -/
def notesC1 : List NoteRow :=
  [{ pitch := 60, start := 0, noteEnd := 3/4, velocity := 64, velocityBin := none }]

/-- Total decoded duration of a token list (`untokenize` accumulates exactly
these lookups over time tokens). -/
def sumDt (tv : List (ℕ × ℚ)) (l : List Token) : ℚ :=
  (l.map fun t => (tokenToDt tv t).getD 0).sum

/-- A token that is a rung of the codec's ladder, decoding to its duration. -/
def IsRungTok (c : Codec) (t : Token) : Prop :=
  ∃ p ∈ c.timeVocab, t = Token.timeT p.1 ∧ tokenToDt c.timeVocab t = some p.2

/-- 1 when the pitch is pressed, 0 otherwise. -/
def pressedBit (l : List (Option ℕ)) (p : ℕ) : ℕ :=
  if l.getD p none = none then 0 else 1

/-- Detects a `NOTE_ON` for an already-pressed pitch ("double press"),
tracking the pressed array exactly like `fix_token_sequences`' scan does. -/
def noRepressAux : List (Option ℕ) → List Token → Bool
  | _, [] => true
  | pr, Token.cls :: ts => noRepressAux pr ts
  | pr, Token.velocity _ :: ts => noRepressAux pr ts
  | pr, Token.timeT _ :: ts => noRepressAux pr ts
  | pr, Token.noteOn p :: ts =>
      decide (pr.getD p none = none) && noRepressAux (pr.set p (some 0)) ts
  | pr, Token.noteOff p :: ts => noRepressAux (pr.set p none) ts

def noRepress (ts : List Token) : Bool := noRepressAux (List.replicate 110 none) ts

/-- A token sequence is consistent when scanning it produces no orphaned OFF
(no prepends) and leaves no pitch pressed (no appends). -/
def consistentScan (ts : List Token) : Bool :=
  (ts.foldl fixStep fixInit).pre.isEmpty
    && (ts.foldl fixStep fixInit).pressed.all fun o => o.isNone

/-- The time of the last event of `l` (the value `previous_time` holds after
`tokenize`'s loop has processed `l`), `prev` if `l` is empty. -/
def lastTime (prev : ℚ) (l : List Event) : ℚ :=
  match l.getLast? with
  | none => prev
  | some e => e.time

/-- Unfolding lemma for one iteration of `_time_vocab`'s loop. -/
theorem timeVocabAux_succ (fuel : ℕ) (dt : ℚ) (it : ℕ) :
    timeVocabAux (fuel + 1) dt it =
      if dt < 1 then (timeVocabAux fuel (2 * dt) (it + 1)).map (fun r => (it, dt) :: r)
      else some [] := rfl

/-- With `eps ≥ 1` the `while dt < 1` loop runs zero times. -/
theorem timeVocabAux_of_one_le (dt : ℚ) (h : 1 ≤ dt) (fuel it : ℕ) :
    timeVocabAux fuel dt it = some [] := by
  cases fuel <;> simp [timeVocabAux, not_lt.mpr h]

theorem mkTokenizer_codecQ : mkTokenizer (1/4) 2 3 = some (some codecQ) := by
  have h : timeVocabAux 3 ((1:ℚ)/4) 1 = some [(1, (1:ℚ)/4), (2, (1:ℚ)/2)] := by
    rw [show (3:ℕ) = 2 + 1 from rfl, timeVocabAux_succ, if_pos (by norm_num : (1:ℚ)/4 < 1)]
    rw [show (2:ℚ) * (1/4) = 1/2 by norm_num]
    rw [show (2:ℕ) = 1 + 1 from rfl, timeVocabAux_succ, if_pos (by norm_num : (1:ℚ)/2 < 1)]
    rw [show (2:ℚ) * (1/2) = 1 by norm_num]
    rw [timeVocabAux_of_one_le 1 le_rfl]
    rfl
  rw [mkTokenizer, h]
  rfl

theorem codecQ_wf : codecQ.WF := by
  refine ⟨by norm_num [codecQ], by norm_num [codecQ], 2, by norm_num, ?_, ?_, ?_, ?_⟩
  · show [(1, (1:ℚ)/4), (2, (1:ℚ)/2)] = _
    rw [show List.range 2 = [0, 1] from rfl]
    norm_num [codecQ]
  · show (1:ℚ)/2 = (1:ℚ)/4 * 2 ^ (2 - 1)
    norm_num
  · show (1:ℚ)/4 * 2 ^ (2 - 1) < 1
    norm_num
  · show (1:ℚ) ≤ (1:ℚ)/4 * 2 ^ 2
    norm_num

/-- `_time_vocab`'s loop, run from any positive `dt` with enough fuel,
produces exactly the doubling ladder starting at `dt`, stopped at the first
value `≥ 1`. -/
theorem timeVocabAux_ladder :
    ∀ (fuel : ℕ) (dt : ℚ) (it : ℕ), 0 < dt → 1 ≤ dt * 2 ^ fuel →
      ∃ m : ℕ,
        timeVocabAux fuel dt it = some ((List.range m).map fun j => (it + j, dt * 2 ^ j)) ∧
        (∀ j < m, dt * 2 ^ j < 1) ∧ 1 ≤ dt * 2 ^ m := by
  intro fuel
  induction fuel with
  | zero =>
      intro dt it hpos hfuel
      have hdt : ¬ dt < 1 := by rw [pow_zero, mul_one] at hfuel; linarith
      exact ⟨0, by simp [timeVocabAux, hdt], by omega, by simpa using hfuel⟩
  | succ f ih =>
      intro dt it hpos hfuel
      by_cases hdt : dt < 1
      · obtain ⟨m, hm, hsmall, hge⟩ := ih (2 * dt) (it + 1) (by linarith)
          (by calc (1 : ℚ) ≤ dt * 2 ^ (f + 1) := hfuel
              _ = 2 * dt * 2 ^ f := by ring)
        refine ⟨m + 1, ?_, ?_, ?_⟩
        · rw [timeVocabAux_succ, if_pos hdt, hm, Option.map_some']
          congr 1
          rw [List.range_succ_eq_map, List.map_cons, List.map_map]
          simp only [Nat.add_zero, pow_zero, mul_one, List.cons.injEq, true_and]
          apply List.map_congr_left
          intro j _
          simp only [Function.comp_apply, Nat.succ_eq_add_one, Prod.mk.injEq]
          constructor
          · omega
          · ring
        · intro j hj
          cases j with
          | zero => simpa using hdt
          | succ j' =>
              have := hsmall j' (by omega)
              calc dt * 2 ^ (j' + 1) = 2 * dt * 2 ^ j' := by ring
              _ < 1 := this
        · calc (1 : ℚ) ≤ 2 * dt * 2 ^ m := hge
          _ = dt * 2 ^ (m + 1) := by ring
      · exact ⟨0, by simp [timeVocabAux, hdt], by omega, by simpa using not_lt.mp hdt⟩

/-- With `dt ≤ 0` the `while dt < 1` loop never exits (doubling keeps `dt`
nonpositive), so no amount of fuel suffices. -/
theorem timeVocabAux_of_nonpos :
    ∀ (fuel : ℕ) (dt : ℚ) (it : ℕ), dt ≤ 0 → timeVocabAux fuel dt it = none := by
  intro fuel
  induction fuel with
  | zero =>
      intro dt it h
      simp [timeVocabAux, lt_of_le_of_lt h one_pos]
  | succ f ih =>
      intro dt it h
      rw [timeVocabAux, if_pos (lt_of_le_of_lt h one_pos), ih (2 * dt) (it + 1) (by linarith)]
      rfl

/-! ### C7: velocity bin edges and top-bin decoding -/

/-- The numpy `linspace(0, 127, num=n)` call yields `n` edges for every `n`. -/
theorem velocityBinEdges_length : ∀ n : ℕ, (velocityBinEdges n).length = n := by
  intro n
  match n with
  | 0 => rfl
  | 1 => rfl
  | n + 2 => simp [velocityBinEdges]

/-- C7: the edge array built from `n_velocity_bins` has `n_velocity_bins`
integer edges (not `n_velocity_bins + 1` as claimed), hence only
`n_velocity_bins - 1` decodable bins; with `n_velocity_bins = 2` the edges are
`[0, 127]`, velocity 127 is digitized to bin 1, and decoding bin 1 is an
out-of-range lookup (`IndexError` in the source). -/
theorem c7_edge_count_and_top_bin_failure :
    (∀ n : ℕ, (velocityBinEdges n).length = n) ∧
    velocityBinEdges 2 = [0, 127] ∧
    (buildVelocityDecoder (velocityBinEdges 2)).length = 1 ∧
    digitizeBin (velocityBinEdges 2) 127 = 1 ∧
    (buildVelocityDecoder (velocityBinEdges 2)).get? (digitizeBin (velocityBinEdges 2) 127)
      = none :=
  ⟨velocityBinEdges_length, by decide, by decide, by decide, by decide⟩

/-! ### C8: construction performs no validation -/

/-- C8 counterexample: with `n_velocity_bins = 0 < 1` (and `eps = 1/2`),
construction succeeds and returns a tokenizer, instead of failing with a
configuration error as claimed. -/
theorem c8_no_validation_cex : ∃ c : Codec, mkTokenizer (1/2) 0 3 = some (some c) := by
  have h : timeVocabAux 3 ((1:ℚ)/2) 1 = some [(1, (1:ℚ)/2)] := by
    rw [show (3:ℕ) = 2 + 1 from rfl, timeVocabAux_succ, if_pos (by norm_num : (1:ℚ)/2 < 1)]
    rw [show (2:ℚ) * (1/2) = 1 by norm_num]
    rw [timeVocabAux_of_one_le 1 le_rfl]
    rfl
  exact ⟨_, by rw [mkTokenizer, h]⟩

/-- C8 (amended): `__init__` validates nothing.  For `eps ∈ (0,1)` and any
`n_velocity_bins ≥ 0` construction succeeds (given enough fuel for the ladder
loop); for `eps ≥ 1` it raises (the `time_vocab[-1]` lookup on the empty time
vocabulary, modelled by the inner `none`); for `eps ≤ 0` the `while dt < 1`
loop never terminates (no fuel suffices, the outer `none`). -/
theorem c8_construction_behaviour :
    (∀ (eps : ℚ) (nbins : ℕ), 0 < eps → eps < 1 →
        ∃ (fuel : ℕ) (c : Codec), mkTokenizer eps nbins fuel = some (some c)) ∧
    (∀ (eps : ℚ) (nbins fuel : ℕ), 1 ≤ eps → mkTokenizer eps nbins fuel = some none) ∧
    (∀ (eps : ℚ) (nbins fuel : ℕ), eps ≤ 0 → mkTokenizer eps nbins fuel = none) := by
  refine ⟨?_, ?_, ?_⟩
  · intro eps nbins h0 h1
    obtain ⟨fuel, hpow⟩ : ∃ fuel : ℕ, 1 / eps ≤ (2 : ℚ) ^ fuel := by
      refine ⟨Nat.ceil (1 / eps), ?_⟩
      calc (1 / eps : ℚ) ≤ (Nat.ceil (1 / eps) : ℚ) := Nat.le_ceil _
      _ ≤ (2 : ℚ) ^ Nat.ceil (1 / eps) := by
          exact_mod_cast le_of_lt (Nat.lt_two_pow _)
    have hge : 1 ≤ eps * 2 ^ fuel := by
      rw [div_le_iff₀ h0] at hpow
      linarith
    obtain ⟨m, hm, _, hm1⟩ := timeVocabAux_ladder fuel eps 1 h0 hge
    have hmpos : 1 ≤ m := by
      by_contra h
      have hm0 : m = 0 := by omega
      rw [hm0, pow_zero, mul_one] at hm1
      linarith
    obtain ⟨m', rfl⟩ : ∃ m', m = m' + 1 := ⟨m - 1, by omega⟩
    rw [List.range_succ_eq_map, List.map_cons] at hm
    exact ⟨fuel, _, by rw [mkTokenizer, hm]⟩
  · intro eps nbins fuel h
    rw [mkTokenizer, timeVocabAux_of_one_le eps h fuel 1]
  · intro eps nbins fuel h
    rw [mkTokenizer, timeVocabAux_of_nonpos fuel eps 1 h]

/-- Witness for C8 (amended): concrete instantiations of all three parts. -/
theorem c8_construction_behaviour_witness :
    (∃ (fuel : ℕ) (c : Codec), mkTokenizer (1/2) 5 fuel = some (some c)) ∧
    mkTokenizer 1 5 7 = some none ∧
    mkTokenizer 0 5 7 = none :=
  ⟨c8_construction_behaviour.1 (1/2) 5 (by norm_num) (by norm_num),
   c8_construction_behaviour.2.1 1 5 7 (by norm_num),
   c8_construction_behaviour.2.2 0 5 7 (by norm_num)⟩

/-! ### C9: `tokenize` mutates the caller's dataframe -/

/-- C9 counterexample: calling `tokenize` changes the caller-supplied note
collection (the `velocity_bin` column is added in place by `quantize_frame`),
refuting "mutates neither ... nor the caller-supplied note collection". -/
theorem c9_tokenize_mutates_cex : (tokenizeNotes codecQ 5 notesC9).2 ≠ notesC9 := by
  decide

/-- C9 (amended): the only caller-visible mutation of `tokenize` is writing
the `velocity_bin` column of the supplied collection (all other columns are
unchanged); the token output is a pure function of the input and the codec
configuration; `untokenize` does not mutate the caller's token list. -/
theorem c9_purity_amended :
    (∀ (c : Codec) (fuel : ℕ) (df : List NoteRow),
        (tokenizeNotes c fuel df).2 = quantizeFrame c df) ∧
    (∀ (c : Codec) (df : List NoteRow),
        (quantizeFrame c df).map stripBin = df.map stripBin) ∧
    (∀ (c : Codec) (fuel : ℕ) (df : List NoteRow),
        (tokenizeNotes c fuel df).1
          = tokenizeEventsAux c fuel 0 (notesToEvents (quantizeFrame c df))) ∧
    (∀ (c : Codec) (ts : List Token), (untokenizePair c ts).2 = ts) := by
  refine ⟨fun c fuel df => rfl, fun c df => ?_, fun c fuel df => rfl, fun c ts => rfl⟩
  rw [quantizeFrame, List.map_map]
  apply List.map_congr_left
  intro r _
  rfl

/-! ### Divergence of the greedy time decomposition (C1, C2) -/

/-- Once `filling_dt` has overshot `dt` by at least `eps`, every later
iteration of `tokenize_time_distance`'s loop takes the halving branch: the
loop never terminates. -/
theorem ttdAux_diverge (c : Codec) (dt : ℚ) (_heps : 0 ≤ c.eps) :
    ∀ (fuel : ℕ) (step filling : ℚ) (acc : List Token), 0 < step →
      dt + c.eps ≤ filling →
      tokenizeTimeDistanceAux c dt fuel step filling acc = none := by
  intro fuel
  induction fuel with
  | zero => intro step filling acc _ _; rfl
  | succ f ih =>
      intro step filling acc hstep hfill
      have h1 : ¬ |dt - filling| < c.eps := by
        rw [not_lt, abs_sub_comm]
        calc c.eps ≤ filling - dt := by linarith
        _ ≤ |filling - dt| := le_abs_self _
      have h2 : filling + step - dt > c.eps := by linarith
      rw [tokenizeTimeDistanceAux, if_neg h1, if_pos h2]
      exact ih (step / 2) filling acc (by positivity) hfill

theorem dtToToken_codecQ_half : dtToToken codecQ.timeVocab (1/2) = some (Token.timeT 2) := by
  rw [show codecQ.timeVocab = [(1, (1:ℚ)/4), (2, (1:ℚ)/2)] from rfl, dtToToken]
  rw [List.find?_cons_of_neg _ (by simp only [decide_eq_true_eq]; norm_num)]
  rw [List.find?_cons_of_pos _ (by simp)]
  rfl

theorem ttd_three_quarters_aux : ∀ (fuel : ℕ) (acc : List Token),
    tokenizeTimeDistanceAux codecQ (3/4) fuel (1/2) (1/2) acc = none := by
  intro fuel acc
  cases fuel with
  | zero => rfl
  | succ f =>
      have h1 : ¬ |(3/4 : ℚ) - 1/2| < codecQ.eps := by
        show ¬ |(3/4 : ℚ) - 1/2| < (1/4 : ℚ)
        rw [abs_lt]
        norm_num
      have h2 : ¬ ((1/2 : ℚ) + 1/2 - 3/4 > codecQ.eps) := by norm_num [codecQ]
      rw [tokenizeTimeDistanceAux, if_neg h1, if_neg h2, dtToToken_codecQ_half]
      have h4 : (1/2 : ℚ) + 1/2 = 1 := by norm_num
      rw [h4]
      exact ttdAux_diverge codecQ (3/4) (by norm_num [codecQ]) f (1/2) 1 _
        (by norm_num) (by norm_num [codecQ])

/-- Concrete divergence: with `eps = 1/4` the decomposition of `dt = 3/4`
emits `1/2` twice, reaching `filling_dt = 1 = dt + eps`, and then halves
forever. -/
theorem ttd_three_quarters : ∀ fuel : ℕ, tokenizeTimeDistance codecQ fuel (3/4) = none := by
  intro fuel
  show tokenizeTimeDistanceAux codecQ (3/4) fuel (1/2) 0 [] = none
  cases fuel with
  | zero => rfl
  | succ f =>
      have h1 : ¬ |(3/4 : ℚ) - 0| < codecQ.eps := by
        show ¬ |(3/4 : ℚ) - 0| < (1/4 : ℚ)
        rw [abs_lt]
        norm_num
      have h2 : ¬ ((0 : ℚ) + 1/2 - 3/4 > codecQ.eps) := by norm_num [codecQ]
      rw [tokenizeTimeDistanceAux, if_neg h1, if_neg h2, dtToToken_codecQ_half]
      have h4 : (0 : ℚ) + 1/2 = 1/2 := by norm_num
      rw [h4]
      exact ttd_three_quarters_aux f _

/-- C2 counterexample: `dt = 3/4 ∈ [0,2)` with the valid `eps = 1/4 ∈ (0,1)`,
yet `tokenize_time_distance(3/4)` never terminates (no fuel makes the loop
finish). -/
theorem c2_nontermination_cex :
    (0 : ℚ) ≤ 3/4 ∧ (3/4 : ℚ) < 2 ∧ 0 < codecQ.eps ∧ codecQ.eps < 1 ∧
    ∀ fuel : ℕ, tokenizeTimeDistance codecQ fuel (3/4) = none :=
  ⟨by norm_num, by norm_num, by norm_num [codecQ], by norm_num [codecQ], ttd_three_quarters⟩

/-- C1: the round trip fails on a valid input because `tokenize` itself never
returns.  With the `eps = 1/4`, `n_velocity_bins = 2` codec and the single
note `{pitch 60, start 0, end 3/4, velocity 64}` (pitch in `[21,108]`,
`0 ≤ start ≤ end`, velocity in `[0,127]` and equal to a value the bins can
produce), the time gap `3/4` makes the greedy decomposition overshoot by
exactly `eps` and loop forever, so `untokenize(tokenize(notes))` computes no
result at all. -/
theorem c1_roundtrip_diverges : ∀ fuel : ℕ, (tokenizeNotes codecQ fuel notesC1).1 = none := by
  intro fuel
  have hev : notesToEvents (quantizeFrame codecQ notesC1) =
      [{ time := 0, pitch := 60, velocityBin := 0, kind := .noteOnK },
       { time := 3/4, pitch := 60, velocityBin := 0, kind := .noteOffK }] := by
    rw [show quantizeFrame codecQ notesC1 =
        [{ pitch := 60, start := 0, noteEnd := 3/4, velocity := 64,
           velocityBin := some 0 }] from rfl]
    rw [notesToEvents]
    norm_num [noteOffEvent, noteOnEvent, sortK, insertK]
  have h1 : (tokenizeNotes codecQ fuel notesC1).1
      = tokenizeEventsAux codecQ fuel 0 (notesToEvents (quantizeFrame codecQ notesC1)) := rfl
  rw [h1, hev]
  simp only [tokenizeEventsAux]
  simp only [show (3/4 : ℚ) - 0 = 3/4 by norm_num, ttd_three_quarters fuel]
  cases tokenizeTimeDistance codecQ fuel (0 - 0) <;> rfl

/-! ### C3: soundness of the greedy time decomposition -/

/-- Unfolding lemma for one iteration of `tokenize_time_distance`'s loop. -/
theorem ttdAux_succ (c : Codec) (dt : ℚ) (fuel : ℕ) (step filling : ℚ) (acc : List Token) :
    tokenizeTimeDistanceAux c dt (fuel + 1) step filling acc =
      if |dt - filling| < c.eps then some acc
      else if filling + step - dt > c.eps then
        tokenizeTimeDistanceAux c dt fuel (step / 2) filling acc
      else
        match dtToToken c.timeVocab step with
        | none => none
        | some tok =>
            tokenizeTimeDistanceAux c dt fuel step (filling + step) (acc ++ [tok]) := rfl

/-- The ladder's `dt_it` keys are pairwise distinct. -/
theorem timeVocab_keys_pairwise (c : Codec) (hwf : c.WF) :
    c.timeVocab.Pairwise (fun p q => p.1 ≠ q.1) := by
  obtain ⟨_, _, K, _, htv, _⟩ := hwf
  rw [htv, List.pairwise_map]
  have h := List.pairwise_lt_range K
  exact h.imp (by omega)

/-- In an association list with distinct keys, `find?` by a member's key
returns exactly that member. -/
theorem find?_key_of_mem {l : List (ℕ × ℚ)}
    (hnd : l.Pairwise (fun p q => p.1 ≠ q.1)) {a : ℕ} {b : ℚ} (hmem : (a, b) ∈ l) :
    l.find? (fun q => decide (q.1 = a)) = some (a, b) := by
  induction l with
  | nil => cases hmem
  | cons x xs ih =>
      rcases List.mem_cons.mp hmem with h | h
      · rw [← h, List.find?_cons_of_pos _ (by simp)]
      · have hx : x.1 ≠ a := by
          have := (List.pairwise_cons.mp hnd).1 _ h
          simpa using this
        rw [List.find?_cons_of_neg _ (by simpa using hx)]
        exact ih (List.pairwise_cons.mp hnd).2 h

/-- `token_to_dt` inverts the vocabulary: a ladder entry's time token decodes
to its duration. -/
theorem tokenToDt_timeVocab (c : Codec) (hwf : c.WF) {a : ℕ} {b : ℚ}
    (hmem : (a, b) ∈ c.timeVocab) :
    tokenToDt c.timeVocab (Token.timeT a) = some b := by
  simp only [tokenToDt]
  rw [find?_key_of_mem (timeVocab_keys_pairwise c hwf) hmem]
  rfl

theorem sumDt_snoc (tv : List (ℕ × ℚ)) (l : List Token) (t : Token) :
    sumDt tv (l ++ [t]) = sumDt tv l + (tokenToDt tv t).getD 0 := by
  simp [sumDt]

/-- Invariant of `tokenize_time_distance`'s loop: whenever the loop exits
normally, the emitted tokens are all ladder rungs and the filled time differs
from `dt` by less than `eps`. -/
theorem ttdAux_sound (c : Codec) (hwf : c.WF) (dt : ℚ) :
    ∀ (fuel : ℕ) (step filling : ℚ) (acc out : List Token),
      tokenizeTimeDistanceAux c dt fuel step filling acc = some out →
      filling = sumDt c.timeVocab acc →
      (∀ t ∈ acc, IsRungTok c t) →
      (∀ t ∈ out, IsRungTok c t) ∧ |dt - sumDt c.timeVocab out| < c.eps := by
  intro fuel
  induction fuel with
  | zero => intro step filling acc out h; cases h
  | succ f ih =>
      intro step filling acc out h hfill hacc
      rw [ttdAux_succ] at h
      by_cases h1 : |dt - filling| < c.eps
      · rw [if_pos h1] at h
        obtain rfl : acc = out := Option.some.inj h
        exact ⟨hacc, by rw [← hfill]; exact h1⟩
      · rw [if_neg h1] at h
        by_cases h2 : filling + step - dt > c.eps
        · rw [if_pos h2] at h
          exact ih _ _ _ _ h hfill hacc
        · rw [if_neg h2] at h
          cases hl : dtToToken c.timeVocab step with
          | none => rw [hl] at h; cases h
          | some tok =>
              rw [hl] at h
              obtain ⟨pr, hfind, htok⟩ := Option.map_eq_some'.mp hl
              have hmem : pr ∈ c.timeVocab := List.mem_of_find?_eq_some hfind
              have hpr2 : pr.2 = step := by
                have := List.find?_some hfind
                simpa using this
              have hdec : tokenToDt c.timeVocab tok = some step := by
                rw [← htok, ← hpr2]
                exact tokenToDt_timeVocab c hwf (by rw [← @Prod.mk.eta ℕ ℚ pr] at hmem; exact hmem)
              refine ih _ _ _ _ h ?_ ?_
              · rw [sumDt_snoc, hdec, ← hfill]
                rfl
              · intro t ht
                rcases List.mem_append.mp ht with h' | h'
                · exact hacc t h'
                · have : t = tok := by simpa using h'
                  subst this
                  exact ⟨pr, hmem, by rw [← htok], by rw [hdec, hpr2]⟩

/-- C3: whenever the greedy time decomposition of `dt ≥ 0` terminates, every
emitted symbol is a rung of the time ladder (it decodes through `token_to_dt`
to that rung's duration), and the decoded durations sum to within `eps` of
`dt` (strictly). -/
theorem c3_time_decomposition (c : Codec) (hwf : c.WF) (dt : ℚ) (_hdt : 0 ≤ dt)
    (fuel : ℕ) (out : List Token)
    (hterm : tokenizeTimeDistance c fuel dt = some out) :
    (∀ t ∈ out, IsRungTok c t) ∧ |dt - sumDt c.timeVocab out| < c.eps := by
  exact ttdAux_sound c hwf dt fuel c.maxTimeValue 0 [] out hterm (by simp [sumDt]) (by simp)

theorem ttd_codecQ_third : tokenizeTimeDistance codecQ 3 (1/3) = some [Token.timeT 2] := by
  show tokenizeTimeDistanceAux codecQ (1/3) 3 (1/2) 0 [] = some [Token.timeT 2]
  have h1 : ¬ |(1/3 : ℚ) - 0| < codecQ.eps := by
    show ¬ |(1/3 : ℚ) - 0| < (1/4 : ℚ)
    rw [abs_lt]
    norm_num
  have h2 : ¬ ((0 : ℚ) + 1/2 - 1/3 > codecQ.eps) := by
    show ¬ ((0 : ℚ) + 1/2 - 1/3 > (1/4 : ℚ))
    norm_num
  rw [show (3:ℕ) = 2 + 1 from rfl, ttdAux_succ, if_neg h1, if_neg h2, dtToToken_codecQ_half]
  simp only [show (0 : ℚ) + 1/2 = 1/2 by norm_num]
  have h3 : |(1/3 : ℚ) - 1/2| < codecQ.eps := by
    show |(1/3 : ℚ) - 1/2| < (1/4 : ℚ)
    rw [abs_lt]
    norm_num
  show tokenizeTimeDistanceAux codecQ (1/3) 2 (1/2) (1/2) [Token.timeT 2] = some [Token.timeT 2]
  rw [show (2:ℕ) = 1 + 1 from rfl, ttdAux_succ, if_pos h3]

/-- Witness for C3: the decomposition of `dt = 1/3` under `eps = 1/4`
terminates with the single rung `2T ↦ 1/2`, and the theorem's conclusions hold
for it. -/
theorem c3_time_decomposition_witness :
    (0 : ℚ) ≤ 1/3 ∧
    tokenizeTimeDistance codecQ 3 (1/3) = some [Token.timeT 2] ∧
    (∀ t ∈ [Token.timeT 2], IsRungTok codecQ t) ∧
    |(1/3 : ℚ) - sumDt codecQ.timeVocab [Token.timeT 2]| < codecQ.eps :=
  ⟨by norm_num, ttd_codecQ_third,
   (c3_time_decomposition codecQ codecQ_wf (1/3) (by norm_num) 3 _ ttd_codecQ_third).1,
   (c3_time_decomposition codecQ codecQ_wf (1/3) (by norm_num) 3 _ ttd_codecQ_third).2⟩

/-! ### C2 (amended): termination off the `eps`-multiples -/

theorem le_ceil_of_lt_add (eps dt : ℚ) (heps : 0 < eps) (N : ℕ)
    (h : eps * (N : ℚ) < dt + eps) : N ≤ Nat.ceil (dt / eps) := by
  by_contra hc
  push_neg at hc
  have h1 : (Nat.ceil (dt / eps) : ℚ) + 1 ≤ (N : ℚ) := by exact_mod_cast hc
  have h2 : dt / eps ≤ (Nat.ceil (dt / eps) : ℚ) := Nat.le_ceil _
  have h3 : dt ≤ eps * (Nat.ceil (dt / eps) : ℚ) := by
    rw [div_le_iff₀ heps] at h2
    linarith
  have h4 : eps * ((Nat.ceil (dt / eps) : ℚ) + 1) ≤ eps * (N : ℚ) :=
    mul_le_mul_of_nonneg_left h1 heps.le
  nlinarith

/-- Greedy-loop termination off the multiples of `eps`: from any reachable
state (`current_step` the `j`-th rung, `filling_dt` a multiple `N * eps` that
has not yet overshot `dt` by `eps` or more), the loop exits within a fuel
bound.  The measure is `j + (⌈dt/eps⌉ + 1 - N)`: the halving branch decreases
`j`, the emit branch increases `N` by `2^j ≥ 1`. -/
theorem ttdAux_terminates (c : Codec) (K : ℕ) (hK : 1 ≤ K)
    (htv : c.timeVocab = (List.range K).map fun j => (j + 1, c.eps * 2 ^ j))
    (heps : 0 < c.eps) (dt : ℚ)
    (hnm : ∀ n : ℕ, dt ≠ c.eps * (n : ℚ)) :
    ∀ (μ j N : ℕ) (acc : List Token),
      j + (Nat.ceil (dt / c.eps) + 1 - N) ≤ μ →
      j ≤ K - 1 →
      c.eps * (N : ℚ) < dt + c.eps →
      ∃ (fuel : ℕ) (out : List Token),
        tokenizeTimeDistanceAux c dt fuel (c.eps * 2 ^ j) (c.eps * (N : ℚ)) acc
          = some out := by
  intro μ
  induction μ with
  | zero =>
      intro j N acc hμ _ hinv
      have hNB := le_ceil_of_lt_add c.eps dt heps N hinv
      omega
  | succ μ ih =>
      intro j N acc hμ hjK hinv
      have hNB := le_ceil_of_lt_add c.eps dt heps N hinv
      by_cases h1 : |dt - c.eps * (N : ℚ)| < c.eps
      · exact ⟨1, acc, by rw [show (1:ℕ) = 0 + 1 from rfl, ttdAux_succ, if_pos h1]⟩
      · have hover : c.eps ≤ dt - c.eps * (N : ℚ) := by
          have h1' := not_lt.mp h1
          rcases abs_cases (dt - c.eps * (N : ℚ)) with ⟨habs, _⟩ | ⟨habs, _⟩
          · rw [habs] at h1'
            exact h1'
          · rw [habs] at h1'
            linarith
        by_cases h2 : c.eps * (N : ℚ) + c.eps * 2 ^ j - dt > c.eps
        · -- halving branch: the current rung overshoots, so j ≥ 2 and we recurse at j - 1
          have hpow : (2 : ℚ) < 2 ^ j := by
            have hmul : c.eps * 2 < c.eps * 2 ^ j := by linarith
            exact lt_of_mul_lt_mul_left hmul heps.le
          have hj2 : 2 ≤ j := by
            by_contra hj
            push_neg at hj
            interval_cases j
            · norm_num at hpow
            · norm_num at hpow
          obtain ⟨jj, rfl⟩ : ∃ jj, j = jj + 1 := ⟨j - 1, by omega⟩
          obtain ⟨fuel, out, heq⟩ := ih jj N acc (by omega) (by omega) hinv
          refine ⟨fuel + 1, out, ?_⟩
          rw [ttdAux_succ, if_neg h1, if_pos h2]
          rw [show c.eps * 2 ^ (jj + 1) / 2 = c.eps * 2 ^ jj by ring]
          exact heq
        · -- emit branch: the rung fits, recurse with filling increased by it
          have hemit : c.eps * (N : ℚ) + c.eps * 2 ^ j - dt ≤ c.eps := not_lt.mp h2
          have h2j1 : 1 ≤ 2 ^ j := Nat.one_le_two_pow
          have hle : c.eps * ((N : ℚ) + 2 ^ j) ≤ dt + c.eps := by
            rw [mul_add]
            linarith
          have hne : c.eps * ((N : ℚ) + 2 ^ j) ≠ dt + c.eps := by
            intro heq
            apply hnm (N + 2 ^ j - 1)
            have hc : ((N + 2 ^ j - 1 : ℕ) : ℚ) = (N : ℚ) + 2 ^ j - 1 := by
              push_cast [Nat.cast_sub (show 1 ≤ N + 2 ^ j by omega)]
              ring
            rw [hc]
            have hd : c.eps * ((N : ℚ) + 2 ^ j - 1) = c.eps * ((N : ℚ) + 2 ^ j) - c.eps := by
              ring
            rw [hd]
            linarith
          have hinv' : c.eps * ((N + 2 ^ j : ℕ) : ℚ) < dt + c.eps := by
            have hcast : ((N + 2 ^ j : ℕ) : ℚ) = (N : ℚ) + 2 ^ j := by push_cast; ring
            rw [hcast]
            exact lt_of_le_of_ne hle hne
          have hmem : (j + 1, c.eps * 2 ^ j) ∈ c.timeVocab := by
            rw [htv]
            exact List.mem_map.mpr ⟨j, List.mem_range.mpr (by omega), rfl⟩
          have hfindsome : (c.timeVocab.find? fun q => decide (q.2 = c.eps * 2 ^ j)).isSome := by
            rw [List.find?_isSome]
            exact ⟨_, hmem, by simp⟩
          obtain ⟨pr, hpr⟩ := Option.isSome_iff_exists.mp hfindsome
          have hl : dtToToken c.timeVocab (c.eps * 2 ^ j) = some (Token.timeT pr.1) := by
            rw [dtToToken, hpr]
            rfl
          have hmeas : j + (Nat.ceil (dt / c.eps) + 1 - (N + 2 ^ j)) ≤ μ := by
            obtain ⟨P, hP⟩ : ∃ P, 2 ^ j = P := ⟨_, rfl⟩
            rw [hP]
            rw [hP] at h2j1
            omega
          obtain ⟨fuel, out, heq⟩ :=
            ih j (N + 2 ^ j) (acc ++ [Token.timeT pr.1]) hmeas hjK hinv'
          refine ⟨fuel + 1, out, ?_⟩
          rw [ttdAux_succ, if_neg h1, if_neg h2, hl]
          have hfill : c.eps * (N : ℚ) + c.eps * 2 ^ j = c.eps * ((N + 2 ^ j : ℕ) : ℚ) := by
            push_cast
            ring
          rw [hfill]
          exact heq

/-- C2 (amended): for every `dt ∈ [0, 2)` and valid `eps ∈ (0,1)` such that
`dt` is not an integer multiple of `eps`, the greedy time-delta encoder
terminates (some fuel bound makes the loop exit).  The multiples of `eps` must
be excluded: on them the loop can overshoot to `filling_dt = dt + eps` exactly
and then halve `current_step` forever (see the counterexample `dt = 3/4`,
`eps = 1/4`). -/
theorem c2_time_distance_terminates (c : Codec) (hwf : c.WF) (dt : ℚ)
    (hdt0 : 0 ≤ dt) (_hdt2 : dt < 2) (hnm : ∀ n : ℕ, dt ≠ (n : ℚ) * c.eps) :
    ∃ (fuel : ℕ) (out : List Token), tokenizeTimeDistance c fuel dt = some out := by
  obtain ⟨heps, _heps1, K, hK, htv, hmax, _hlt, _hge⟩ := hwf
  have hnm' : ∀ n : ℕ, dt ≠ c.eps * (n : ℚ) := by
    intro n h
    exact hnm n (by rw [mul_comm] at h; exact h)
  obtain ⟨fuel, out, h⟩ :=
    ttdAux_terminates c K hK htv heps dt hnm'
      ((K - 1) + (Nat.ceil (dt / c.eps) + 1)) (K - 1) 0 []
      (by omega) (le_refl _)
      (by push_cast; linarith)
  refine ⟨fuel, out, ?_⟩
  rw [tokenizeTimeDistance, hmax]
  rw [show (0 : ℚ) = c.eps * ((0 : ℕ) : ℚ) by push_cast; ring]
  exact h

/-- Witness for C2 (amended): `dt = 1/3` is not a multiple of `eps = 1/4`, and
the decomposition terminates on it. -/
theorem c2_time_distance_terminates_witness :
    ∃ (fuel : ℕ) (out : List Token), tokenizeTimeDistance codecQ fuel (1/3) = some out :=
  c2_time_distance_terminates codecQ codecQ_wf (1/3) (by norm_num) (by norm_num)
    (fun n h => by
      rw [show codecQ.eps = (1/4 : ℚ) from rfl] at h
      have h4 : (n : ℚ) * 3 = 4 := by linarith
      have h5 : n * 3 = 4 := by exact_mod_cast h4
      omega)

/-! ### Properties of the repair scan (C4, C5, C10) -/

theorem getD_set_self (l : List (Option ℕ)) (i : ℕ) (a : Option ℕ) (h : i < l.length) :
    (l.set i a).getD i none = a := by
  simp [List.getD_eq_getElem?_getD, List.getElem?_set_self, h]

theorem getD_set_ne (l : List (Option ℕ)) (i j : ℕ) (a : Option ℕ) (h : i ≠ j) :
    (l.set i a).getD j none = l.getD j none := by
  simp [List.getD_eq_getElem?_getD, List.getElem?_set_ne h]

theorem getD_replicate_none (n i : ℕ) :
    (List.replicate n (none : Option ℕ)).getD i none = none := by
  simp only [List.getD_eq_getElem?_getD, List.getElem?_replicate]
  split <;> rfl

theorem getD_of_all_none (l : List (Option ℕ)) (h : l.all (fun o => o.isNone) = true)
    (i : ℕ) : l.getD i none = none := by
  by_cases hi : i < l.length
  · rw [List.getD_eq_getElem?_getD, List.getElem?_eq_getElem hi]
    have hm : l[i] ∈ l := List.getElem_mem hi
    have := List.all_eq_true.mp h _ hm
    simp only [Option.isNone_iff_eq_none] at this
    rw [this]
    rfl
  · exact List.getD_eq_default l none (by omega)

theorem fixStep_pressed_length (s : FixState) (t : Token) :
    (fixStep s t).pressed.length = s.pressed.length := by
  cases t with
  | cls => rfl
  | velocity b => rfl
  | timeT k => rfl
  | noteOn p => simp [fixStep]
  | noteOff p =>
      rw [fixStep]
      split <;> simp

theorem fix_pressed_length : ∀ (ts : List Token) (s : FixState),
    (List.foldl fixStep s ts).pressed.length = s.pressed.length := by
  intro ts
  induction ts with
  | nil => intro s; rfl
  | cons t ts ih =>
      intro s
      rw [List.foldl_cons, ih, fixStep_pressed_length]

theorem fixStep_cv_velocity (s : FixState) (t : Token) (h : ∃ b, s.cv = Token.velocity b) :
    ∃ b, (fixStep s t).cv = Token.velocity b := by
  cases t with
  | cls => exact h
  | velocity b => exact ⟨b, rfl⟩
  | timeT k => exact h
  | noteOn p => exact h
  | noteOff p =>
      rw [fixStep]
      split <;> exact h

theorem fix_cv_velocity : ∀ (ts : List Token) (s : FixState),
    (∃ b, s.cv = Token.velocity b) → ∃ b, (List.foldl fixStep s ts).cv = Token.velocity b := by
  intro ts
  induction ts with
  | nil => intro s h; exact h
  | cons t ts ih =>
      intro s h
      rw [List.foldl_cons]
      exact ih _ (fixStep_cv_velocity s t h)

/-- Scanning a velocity-free segment leaves the tracked velocity token
unchanged. -/
theorem fix_cv_of_no_velocity : ∀ (ts : List Token) (s : FixState),
    (∀ t ∈ ts, ∀ b, t ≠ Token.velocity b) → (List.foldl fixStep s ts).cv = s.cv := by
  intro ts
  induction ts with
  | nil => intro s _; rfl
  | cons t ts ih =>
      intro s h
      rw [List.foldl_cons, ih _ (fun x hx => h x (List.mem_cons_of_mem t hx))]
      cases t with
      | cls => rfl
      | timeT k => rfl
      | noteOn p => rfl
      | velocity b => exact absurd rfl (h _ (List.mem_cons_self _ _) b)
      | noteOff p =>
          rw [fixStep]
          split <;> rfl

theorem fixStep_pre (s : FixState) (t : Token) :
    (fixStep s t).pre = s.pre ∨ ∃ p, (fixStep s t).pre = s.cv :: Token.noteOn p :: s.pre := by
  cases t with
  | cls => exact Or.inl rfl
  | velocity b => exact Or.inl rfl
  | timeT k => exact Or.inl rfl
  | noteOn p => exact Or.inl rfl
  | noteOff p =>
      rw [fixStep]
      split
      · exact Or.inr ⟨p, rfl⟩
      · exact Or.inl rfl

/-- The prepended pairs only accumulate at the front of `pre`. -/
theorem fix_pre_extend : ∀ (ts : List Token) (s : FixState),
    ∃ x, (List.foldl fixStep s ts).pre = x ++ s.pre := by
  intro ts
  induction ts with
  | nil => intro s; exact ⟨[], rfl⟩
  | cons t ts ih =>
      intro s
      rw [List.foldl_cons]
      obtain ⟨x, hx⟩ := ih (fixStep s t)
      rcases fixStep_pre s t with h | ⟨p, h⟩
      · exact ⟨x, by rw [hx, h]⟩
      · refine ⟨x ++ [s.cv, Token.noteOn p], ?_⟩
        rw [hx, h]
        simp

/-- Every token in `pre` is a velocity token or a note-on for a vocabulary
pitch. -/
theorem fix_pre_mem : ∀ (ts : List Token) (s : FixState),
    (∀ tok ∈ ts, tok.wfPitch) →
    (∃ b, s.cv = Token.velocity b) →
    (∀ u ∈ s.pre, (∃ b, u = Token.velocity b) ∨ ∃ q, 21 ≤ q ∧ q ≤ 108 ∧ u = Token.noteOn q) →
    ∀ u ∈ (List.foldl fixStep s ts).pre,
      (∃ b, u = Token.velocity b) ∨ ∃ q, 21 ≤ q ∧ q ≤ 108 ∧ u = Token.noteOn q := by
  intro ts
  induction ts with
  | nil => intro s _ _ hpre; exact hpre
  | cons t ts ih =>
      intro s hwf hcv hpre
      rw [List.foldl_cons]
      refine ih _ (fun x hx => hwf x (List.mem_cons_of_mem t hx))
        (fixStep_cv_velocity s t hcv) ?_
      cases t with
      | cls => exact hpre
      | velocity b => exact hpre
      | timeT k => exact hpre
      | noteOn p => exact hpre
      | noteOff p =>
          have hp : 21 ≤ p ∧ p ≤ 108 := hwf _ (List.mem_cons_self _ _)
          rw [fixStep]
          split
          · intro u hu
            rcases List.mem_cons.mp hu with rfl | hu'
            · exact Or.inl hcv
            · rcases List.mem_cons.mp hu' with rfl | hu''
              · exact Or.inr ⟨p, hp.1, hp.2, rfl⟩
              · exact hpre u hu''
          · exact hpre

/-- `fix_token_sequences` never prepends an OFF symbol. -/
theorem fix_pre_count_noteOff (ts : List Token) (hwf : ∀ tok ∈ ts, tok.wfPitch) (p : ℕ) :
    (List.foldl fixStep fixInit ts).pre.count (Token.noteOff p) = 0 := by
  rw [List.count_eq_zero]
  intro hmem
  rcases fix_pre_mem ts fixInit hwf ⟨0, rfl⟩ (by intro u hu; cases hu) _ hmem with
    ⟨b, hb⟩ | ⟨q, _, _, hq⟩
  · cases hb
  · cases hq

/-! appends of the repair pass, counted per pitch -/

theorem fixAppendsAux_count_noteOn (pr : List (Option ℕ)) (p : ℕ) : ∀ n : ℕ,
    (((List.range n).map fun k =>
        match pr.getD k none with
        | some b => [Token.velocity b, Token.noteOff k]
        | none => ([] : List Token)).flatten).count (Token.noteOn p) = 0 := by
  intro n
  induction n with
  | zero => rfl
  | succ n ih =>
      rw [List.range_succ, List.map_append, List.flatten_append, List.count_append, ih]
      cases h : pr.getD n none with
      | none =>
          simp only [List.map_cons, List.map_nil, List.flatten_cons, List.flatten_nil,
            List.append_nil, h, List.count_nil]
      | some b =>
          simp only [List.map_cons, List.map_nil, List.flatten_cons, List.flatten_nil,
            List.append_nil, h, List.count_cons, List.count_nil]
          simp

theorem fixAppendsAux_count_noteOff (pr : List (Option ℕ)) (p : ℕ) : ∀ n : ℕ,
    (((List.range n).map fun k =>
        match pr.getD k none with
        | some b => [Token.velocity b, Token.noteOff k]
        | none => ([] : List Token)).flatten).count (Token.noteOff p)
      = if p < n ∧ pr.getD p none ≠ none then 1 else 0 := by
  intro n
  induction n with
  | zero => simp
  | succ n ih =>
      rw [List.range_succ, List.map_append, List.flatten_append, List.count_append, ih]
      by_cases hpn : p = n
      · subst hpn
        cases h : pr.getD p none with
        | none =>
            simp only [List.map_cons, List.map_nil, List.flatten_cons, List.flatten_nil,
              List.append_nil, h, List.count_nil]
            simp
        | some b =>
            simp only [List.map_cons, List.map_nil, List.flatten_cons, List.flatten_nil,
              List.append_nil, h, List.count_cons, List.count_nil]
            simp
      · have hiff : (p < n + 1 ∧ pr.getD p none ≠ none) ↔ (p < n ∧ pr.getD p none ≠ none) := by
          constructor
          · rintro ⟨h1, h2⟩
            refine ⟨by omega, h2⟩
          · rintro ⟨h1, h2⟩
            exact ⟨by omega, h2⟩
        rw [if_congr hiff rfl rfl]
        cases h : pr.getD n none with
        | none =>
            simp only [List.map_cons, List.map_nil, List.flatten_cons, List.flatten_nil,
              List.append_nil, h, List.count_nil]
            simp
        | some b =>
            simp only [List.map_cons, List.map_nil, List.flatten_cons, List.flatten_nil,
              List.append_nil, h, List.count_cons, List.count_nil]
            simp [Ne.symm hpn]

theorem fixAppends_count_noteOn (pr : List (Option ℕ)) (p : ℕ) :
    (fixAppends pr).count (Token.noteOn p) = 0 :=
  fixAppendsAux_count_noteOn pr p 110

theorem fixAppends_count_noteOff (pr : List (Option ℕ)) (p : ℕ) :
    (fixAppends pr).count (Token.noteOff p)
      = if p < 110 ∧ pr.getD p none ≠ none then 1 else 0 :=
  fixAppendsAux_count_noteOff pr p 110

theorem fixAppends_eq_nil (pr : List (Option ℕ)) (h : pr.all (fun o => o.isNone) = true) :
    fixAppends pr = [] := by
  rw [fixAppends, List.flatten_eq_nil_iff]
  intro x hx
  obtain ⟨k, _, hfk⟩ := List.mem_map.mp hx
  rw [getD_of_all_none pr h k] at hfk
  exact hfk.symm

/-! ### C5: the repair pass is the identity on consistent sequences -/

theorem fix_id_of_consistent (ts : List Token) (h : consistentScan ts = true) :
    fixTokenSequences ts = ts := by
  rw [consistentScan, Bool.and_eq_true] at h
  obtain ⟨h1, h2⟩ := h
  rw [List.isEmpty_iff] at h1
  rw [fixTokenSequences]
  show (ts.foldl fixStep fixInit).pre ++ ts ++ fixAppends (ts.foldl fixStep fixInit).pressed = ts
  rw [h1, fixAppends_eq_nil _ h2]
  simp

/-- C5 (amended): the repair pass is idempotent on consistent token sequences
(no orphaned OFF, no pitch left pressed): on them it is the identity, hence
applying it twice equals applying it once.  It is not idempotent in general
(see the counterexample with two orphaned OFFs for one pitch). -/
theorem c5_repair_idempotent (ts : List Token) (h : consistentScan ts = true) :
    fixTokenSequences (fixTokenSequences ts) = fixTokenSequences ts := by
  rw [fix_id_of_consistent ts h]
  exact fix_id_of_consistent ts h

set_option maxRecDepth 4000 in
/-- C5 counterexample: on `[NOTE_OFF_60, NOTE_OFF_60]` (two orphaned OFFs for
one pitch, both drawn from the vocabulary) the repair pass is not idempotent:
the first pass prepends two `ON_60` pairs, and the second pass sees the second
OFF as orphaned again and prepends a third pair. -/
theorem c5_repair_not_idempotent_cex :
    fixTokenSequences (fixTokenSequences [Token.noteOff 60, Token.noteOff 60])
      ≠ fixTokenSequences [Token.noteOff 60, Token.noteOff 60] := by
  decide

/-- Witness for C5 (amended): a consistent press/release sequence. -/
theorem c5_repair_idempotent_witness :
    fixTokenSequences (fixTokenSequences
        [Token.velocity 1, Token.noteOn 60, Token.velocity 0, Token.noteOff 60])
      = fixTokenSequences
        [Token.velocity 1, Token.noteOn 60, Token.velocity 0, Token.noteOff 60] :=
  c5_repair_idempotent _ (by decide)

/-! ### C10: orphaned OFF before any velocity symbol uses `VELOCITY_0` -/

/-- C10: if a `NOTE_OFF_p` occurs at a point where `p` is not pressed and no
velocity symbol has appeared before it, the repair pass prepends the synthetic
pair `[VELOCITY_0, NOTE_ON_p]` — the default `VELOCITY_0` (bin 0), not a
velocity taken from the sequence.  The conclusion exhibits the repaired
sequence: the pair generated at this OFF sits directly before the earlier
prepends `(scan t1).pre`, followed by the original tokens and the appended
pairs. -/
theorem c10_default_velocity_prepend (t1 t2 : List Token) (p : ℕ)
    (hnovel : ∀ t ∈ t1, ∀ b, t ≠ Token.velocity b)
    (hunpressed : (List.foldl fixStep fixInit t1).pressed.getD p none = none) :
    ∃ x a : List Token,
      fixTokenSequences (t1 ++ Token.noteOff p :: t2)
        = x ++ Token.velocity 0 :: Token.noteOn p :: (List.foldl fixStep fixInit t1).pre
            ++ (t1 ++ Token.noteOff p :: t2) ++ a := by
  have hcv : (List.foldl fixStep fixInit t1).cv = Token.velocity 0 :=
    fix_cv_of_no_velocity t1 fixInit hnovel
  have hstep : fixStep (List.foldl fixStep fixInit t1) (Token.noteOff p)
      = { cv := Token.velocity 0,
          pressed := (List.foldl fixStep fixInit t1).pressed.set p none,
          pre := Token.velocity 0 :: Token.noteOn p
                  :: (List.foldl fixStep fixInit t1).pre } := by
    rw [fixStep, if_pos hunpressed, hcv]
  have hfold : List.foldl fixStep fixInit (t1 ++ Token.noteOff p :: t2)
      = List.foldl fixStep (fixStep (List.foldl fixStep fixInit t1) (Token.noteOff p)) t2 := by
    rw [List.foldl_append, List.foldl_cons]
  obtain ⟨x, hx⟩ := fix_pre_extend t2 (fixStep (List.foldl fixStep fixInit t1) (Token.noteOff p))
  refine ⟨x, fixAppends (List.foldl fixStep fixInit (t1 ++ Token.noteOff p :: t2)).pressed, ?_⟩
  rw [fixTokenSequences]
  show (List.foldl fixStep fixInit (t1 ++ Token.noteOff p :: t2)).pre
      ++ (t1 ++ Token.noteOff p :: t2)
      ++ fixAppends (List.foldl fixStep fixInit (t1 ++ Token.noteOff p :: t2)).pressed = _
  rw [hfold, hx, hstep]

/-- Witness for C10: the single-token sequence `[NOTE_OFF_60]`. -/
theorem c10_default_velocity_prepend_witness :
    ∃ x a : List Token,
      fixTokenSequences ([] ++ Token.noteOff 60 :: [])
        = x ++ Token.velocity 0 :: Token.noteOn 60 :: (List.foldl fixStep fixInit []).pre
            ++ ([] ++ Token.noteOff 60 :: []) ++ a :=
  c10_default_velocity_prepend [] [] 60 (by intro t ht; cases ht) (by decide)

/-! ### C4: repair balance -/

/-- Scan invariant for repair balance: along the scan, the ONs prepended so
far plus the ONs read so far balance against the OFFs read so far and the
pressed flag, pitch by pitch.  Requires that no pressed pitch is pressed again
(`noRepressAux`). -/
theorem fix_scan_balance :
    ∀ (ts : List Token) (s : FixState) (pr : List (Option ℕ)),
      s.pressed.length = 110 →
      pr.length = 110 →
      (∀ tok ∈ ts, tok.wfPitch) →
      noRepressAux pr ts = true →
      (∀ q, pr.getD q none = none ↔ s.pressed.getD q none = none) →
      (∃ b, s.cv = Token.velocity b) →
      ∀ p : ℕ,
        (List.foldl fixStep s ts).pre.count (Token.noteOn p)
            + ts.count (Token.noteOn p) + pressedBit s.pressed p
          = s.pre.count (Token.noteOn p) + ts.count (Token.noteOff p)
            + pressedBit (List.foldl fixStep s ts).pressed p := by
  intro ts
  induction ts with
  | nil =>
      intro s pr _ _ _ _ _ _ p
      simp [List.count_nil]
  | cons t ts ih =>
      intro s pr hslen hprlen hwf hnr hrel hcv p
      rw [List.foldl_cons]
      cases t with
      | cls =>
          have h := ih (fixStep s Token.cls) pr hslen hprlen
            (fun x hx => hwf x (List.mem_cons_of_mem _ hx)) hnr hrel hcv p
          rw [List.count_cons_of_ne (by simp), List.count_cons_of_ne (by simp)]
          exact h
      | timeT k =>
          have h := ih (fixStep s (Token.timeT k)) pr hslen hprlen
            (fun x hx => hwf x (List.mem_cons_of_mem _ hx)) hnr hrel hcv p
          rw [List.count_cons_of_ne (by simp), List.count_cons_of_ne (by simp)]
          exact h
      | velocity b =>
          have h := ih (fixStep s (Token.velocity b)) pr hslen hprlen
            (fun x hx => hwf x (List.mem_cons_of_mem _ hx)) hnr hrel ⟨b, rfl⟩ p
          rw [List.count_cons_of_ne (by simp), List.count_cons_of_ne (by simp)]
          exact h
      | noteOn q =>
          have hq : 21 ≤ q ∧ q ≤ 108 := hwf _ (List.mem_cons_self _ _)
          rw [noRepressAux, Bool.and_eq_true, decide_eq_true_eq] at hnr
          obtain ⟨hq0, hrest⟩ := hnr
          have hsq : s.pressed.getD q none = none := (hrel q).mp hq0
          have hrel' : ∀ r, (pr.set q (some 0)).getD r none = none ↔
              (s.pressed.set q (some (tokenVelBin s.cv))).getD r none = none := by
            intro r
            by_cases hrq : r = q
            · subst hrq
              rw [getD_set_self pr r _ (by omega), getD_set_self s.pressed r _ (by omega)]
              constructor
              · intro hcon; cases hcon
              · intro hcon; cases hcon
            · rw [getD_set_ne pr q r _ (Ne.symm hrq), getD_set_ne s.pressed q r _ (Ne.symm hrq)]
              exact hrel r
          have h := ih (fixStep s (Token.noteOn q)) (pr.set q (some 0))
            (by rw [fixStep_pressed_length]; exact hslen)
            (by rw [List.length_set]; exact hprlen)
            (fun x hx => hwf x (List.mem_cons_of_mem _ hx))
            hrest hrel' hcv p
          have hwpre : (fixStep s (Token.noteOn q)).pre = s.pre := rfl
          have hwprs : (fixStep s (Token.noteOn q)).pressed
              = s.pressed.set q (some (tokenVelBin s.cv)) := rfl
          rw [hwpre, hwprs] at h
          rw [List.count_cons_of_ne (show Token.noteOff p ≠ Token.noteOn q from by simp)]
          by_cases hpq : p = q
          · subst hpq
            rw [List.count_cons_self]
            have hb1 : pressedBit s.pressed p = 0 := by rw [pressedBit, if_pos hsq]
            have hb2 : pressedBit (s.pressed.set p (some (tokenVelBin s.cv))) p = 1 := by
              rw [pressedBit, if_neg]
              rw [getD_set_self s.pressed p _ (by omega)]
              intro hcon
              cases hcon
            rw [hb1]
            rw [hb2] at h
            omega
          · rw [List.count_cons_of_ne (show Token.noteOn p ≠ Token.noteOn q from by simp [hpq])]
            have hb2 : pressedBit (s.pressed.set q (some (tokenVelBin s.cv))) p
                = pressedBit s.pressed p := by
              rw [pressedBit, pressedBit, getD_set_ne s.pressed q p _ (Ne.symm hpq)]
            rw [hb2] at h
            omega
      | noteOff q =>
          have hq : 21 ≤ q ∧ q ≤ 108 := hwf _ (List.mem_cons_self _ _)
          rw [noRepressAux] at hnr
          have hrel' : ∀ r, (pr.set q none).getD r none = none ↔
              (s.pressed.set q none).getD r none = none := by
            intro r
            by_cases hrq : r = q
            · subst hrq
              rw [getD_set_self pr r _ (by omega), getD_set_self s.pressed r _ (by omega)]
            · rw [getD_set_ne pr q r _ (Ne.symm hrq), getD_set_ne s.pressed q r _ (Ne.symm hrq)]
              exact hrel r
          rw [List.count_cons_of_ne (show Token.noteOn p ≠ Token.noteOff q from by simp)]
          have hoff : (Token.noteOff q :: ts).count (Token.noteOff p)
              = ts.count (Token.noteOff p) + (if p = q then 1 else 0) := by
            by_cases hpq : p = q
            · subst hpq
              rw [List.count_cons_self, if_pos rfl]
            · rw [List.count_cons_of_ne (by simp [hpq]), if_neg hpq]
              omega
          rw [hoff]
          by_cases hsq : s.pressed.getD q none = none
          · -- orphaned OFF: a synthetic pair is prepended
            have hwpre : (fixStep s (Token.noteOff q)).pre
                = s.cv :: Token.noteOn q :: s.pre := by
              rw [fixStep, if_pos hsq]
            have hwprs : (fixStep s (Token.noteOff q)).pressed
                = s.pressed.set q none := by
              rw [fixStep, if_pos hsq]
            have h := ih (fixStep s (Token.noteOff q)) (pr.set q none)
              (by rw [fixStep_pressed_length]; exact hslen)
              (by rw [List.length_set]; exact hprlen)
              (fun x hx => hwf x (List.mem_cons_of_mem _ hx)) hnr
              (fun r => by rw [hwprs]; exact hrel' r)
              (fixStep_cv_velocity s _ hcv) p
            rw [hwpre, hwprs] at h
            obtain ⟨b, hb⟩ := hcv
            have hcnt : (s.cv :: Token.noteOn q :: s.pre).count (Token.noteOn p)
                = s.pre.count (Token.noteOn p) + (if p = q then 1 else 0) := by
              rw [hb, List.count_cons_of_ne (by simp)]
              by_cases hpq : p = q
              · subst hpq
                rw [List.count_cons_self, if_pos rfl]
              · rw [List.count_cons_of_ne (by simp [hpq]), if_neg hpq]
                omega
            rw [hcnt] at h
            by_cases hpq : p = q
            · subst hpq
              have hb1 : pressedBit s.pressed p = 0 := by rw [pressedBit, if_pos hsq]
              have hb2 : pressedBit (s.pressed.set p none) p = 0 := by
                rw [pressedBit, if_pos (getD_set_self s.pressed p none (by omega))]
              rw [hb1, if_pos rfl]
              rw [hb2, if_pos rfl] at h
              omega
            · have hb2 : pressedBit (s.pressed.set q none) p = pressedBit s.pressed p := by
                rw [pressedBit, pressedBit, getD_set_ne s.pressed q p none (Ne.symm hpq)]
              rw [if_neg hpq]
              rw [hb2, if_neg hpq] at h
              omega
          · -- matched OFF: the pitch is released
            have hwpre : (fixStep s (Token.noteOff q)).pre = s.pre := by
              rw [fixStep, if_neg hsq]
            have hwprs : (fixStep s (Token.noteOff q)).pressed
                = s.pressed.set q none := by
              rw [fixStep, if_neg hsq]
            have h := ih (fixStep s (Token.noteOff q)) (pr.set q none)
              (by rw [fixStep_pressed_length]; exact hslen)
              (by rw [List.length_set]; exact hprlen)
              (fun x hx => hwf x (List.mem_cons_of_mem _ hx)) hnr
              (fun r => by rw [hwprs]; exact hrel' r)
              (fixStep_cv_velocity s _ hcv) p
            rw [hwpre, hwprs] at h
            by_cases hpq : p = q
            · subst hpq
              have hb1 : pressedBit s.pressed p = 1 := by rw [pressedBit, if_neg hsq]
              have hb2 : pressedBit (s.pressed.set p none) p = 0 := by
                rw [pressedBit, if_pos (getD_set_self s.pressed p none (by omega))]
              rw [hb1, if_pos rfl]
              rw [hb2] at h
              omega
            · have hb2 : pressedBit (s.pressed.set q none) p = pressedBit s.pressed p := by
                rw [pressedBit, pressedBit, getD_set_ne s.pressed q p none (Ne.symm hpq)]
              rw [if_neg hpq]
              rw [hb2] at h
              omega

/-- C4 (amended): for every token sequence drawn from the vocabulary in which
no pitch gets a second `NOTE_ON` while already pressed (no double press —
checked by the same scan the repair performs), the repaired sequence has
equally many `NOTE_ON` and `NOTE_OFF` symbols for every pitch.  The
no-double-press condition is necessary: see the counterexample. -/
theorem c4_repair_balance (ts : List Token) (hwf : ∀ tok ∈ ts, tok.wfPitch)
    (hnr : noRepress ts = true) (p : ℕ) :
    (fixTokenSequences ts).count (Token.noteOn p)
      = (fixTokenSequences ts).count (Token.noteOff p) := by
  have hbal := fix_scan_balance ts fixInit (List.replicate 110 none)
    (by simp [fixInit]) (by simp) hwf hnr (fun q => Iff.rfl) ⟨0, rfl⟩ p
  have hbit0 : pressedBit fixInit.pressed p = 0 := by
    rw [pressedBit, show fixInit.pressed = List.replicate 110 none from rfl,
      if_pos (getD_replicate_none 110 p)]
  have hpre0 : fixInit.pre.count (Token.noteOn p) = 0 := rfl
  rw [hbit0, hpre0] at hbal
  rw [fixTokenSequences]
  show ((List.foldl fixStep fixInit ts).pre ++ ts
      ++ fixAppends (List.foldl fixStep fixInit ts).pressed).count (Token.noteOn p)
    = ((List.foldl fixStep fixInit ts).pre ++ ts
      ++ fixAppends (List.foldl fixStep fixInit ts).pressed).count (Token.noteOff p)
  rw [List.count_append, List.count_append, List.count_append, List.count_append]
  rw [fixAppends_count_noteOn, fixAppends_count_noteOff, fix_pre_count_noteOff ts hwf p]
  have hlen : (List.foldl fixStep fixInit ts).pressed.length = 110 := by
    rw [fix_pressed_length]
    rfl
  have happ : (if p < 110 ∧ (List.foldl fixStep fixInit ts).pressed.getD p none ≠ none
        then 1 else 0)
      = pressedBit (List.foldl fixStep fixInit ts).pressed p := by
    rw [pressedBit]
    by_cases hp110 : p < 110
    · by_cases hnone : (List.foldl fixStep fixInit ts).pressed.getD p none = none
      · rw [if_neg (by rintro ⟨_, hcon⟩; exact hcon hnone), if_pos hnone]
      · rw [if_pos ⟨hp110, hnone⟩, if_neg hnone]
    · have hnone : (List.foldl fixStep fixInit ts).pressed.getD p none = none :=
        List.getD_eq_default _ _ (by omega)
      rw [if_neg (by rintro ⟨hcon, _⟩; omega), if_pos hnone]
  rw [happ]
  omega

set_option maxRecDepth 4000 in
/-- C4 counterexample: the vocabulary sequence
`[NOTE_ON_60, NOTE_ON_60, NOTE_OFF_60]` (a double press) is returned unchanged
by the repair pass — the second ON merely overwrites the pressed flag and the
OFF matches it — so the output has two `NOTE_ON_60` but only one
`NOTE_OFF_60`. -/
theorem c4_repair_balance_cex :
    (fixTokenSequences [Token.noteOn 60, Token.noteOn 60, Token.noteOff 60]).count
        (Token.noteOn 60)
      ≠ (fixTokenSequences [Token.noteOn 60, Token.noteOn 60, Token.noteOff 60]).count
        (Token.noteOff 60) := by
  decide

set_option maxRecDepth 4000 in
/-- Witness for C4 (amended): a proper press/release sequence. -/
theorem c4_repair_balance_witness :
    (fixTokenSequences
        [Token.velocity 1, Token.noteOn 60, Token.velocity 0, Token.noteOff 60]).count
        (Token.noteOn 60)
      = (fixTokenSequences
        [Token.velocity 1, Token.noteOn 60, Token.velocity 0, Token.noteOff 60]).count
        (Token.noteOff 60) :=
  c4_repair_balance _ (by decide) (by decide) 60

/-! ### C6: event ordering and tie-break -/

theorem lastTime_nil (prev : ℚ) : lastTime prev [] = prev := rfl

theorem lastTime_cons (prev : ℚ) (e : Event) (es : List Event) :
    lastTime prev (e :: es) = lastTime e.time es := by
  cases es with
  | nil => rfl
  | cons f fs =>
      rw [lastTime, lastTime, List.getLast?_cons_cons]
      cases h : (f :: fs).getLast? with
      | none =>
          rw [List.getLast?_eq_none_iff] at h
          cases h
      | some a => rfl

theorem mem_insertK (key : α → ℚ) (x z : α) :
    ∀ l : List α, z ∈ insertK key x l ↔ z = x ∨ z ∈ l := by
  intro l
  induction l with
  | nil => simp [insertK]
  | cons y ys ih =>
      rw [insertK]
      by_cases h : key x ≤ key y
      · rw [if_pos h]
        exact List.mem_cons
      · rw [if_neg h]
        rw [List.mem_cons, ih, List.mem_cons]
        tauto

theorem mem_sortK (key : α → ℚ) (z : α) :
    ∀ l : List α, z ∈ sortK key l ↔ z ∈ l := by
  intro l
  induction l with
  | nil => exact Iff.rfl
  | cons x xs ih =>
      rw [sortK, mem_insertK, ih]
      simp

theorem insertK_pairwise_le (key : α → ℚ) (x : α) :
    ∀ l : List α, l.Pairwise (fun a b => key a ≤ key b) →
      (insertK key x l).Pairwise (fun a b => key a ≤ key b) := by
  intro l
  induction l with
  | nil => intro _; exact List.pairwise_singleton _ _
  | cons y ys ih =>
      intro hp
      rw [List.pairwise_cons] at hp
      obtain ⟨hy, hys⟩ := hp
      rw [insertK]
      by_cases h : key x ≤ key y
      · rw [if_pos h, List.pairwise_cons]
        refine ⟨?_, ?_⟩
        · intro z hz
          rcases List.mem_cons.mp hz with rfl | hz'
          · exact h
          · exact le_trans h (hy z hz')
        · rw [List.pairwise_cons]
          exact ⟨hy, hys⟩
      · rw [if_neg h, List.pairwise_cons]
        refine ⟨?_, ih hys⟩
        intro z hz
        rcases (mem_insertK key x z ys).mp hz with rfl | hz'
        · exact le_of_lt (not_le.mp h)
        · exact hy z hz'

/-- The stable sort sorts by the key. -/
theorem sortK_sorted (key : α → ℚ) :
    ∀ l : List α, (sortK key l).Pairwise (fun a b => key a ≤ key b) := by
  intro l
  induction l with
  | nil => exact List.Pairwise.nil
  | cons x xs ih => exact insertK_pairwise_le key x _ ih

theorem insertK_filter (key : α → ℚ) (x : α) (t : ℚ) :
    ∀ l : List α,
      (insertK key x l).filter (fun a => decide (key a = t))
        = if key x = t then x :: l.filter (fun a => decide (key a = t))
          else l.filter (fun a => decide (key a = t)) := by
  intro l
  induction l with
  | nil =>
      rw [insertK]
      by_cases hx : key x = t
      · rw [if_pos hx]
        simp [List.filter, hx]
      · rw [if_neg hx]
        simp [List.filter, hx]
  | cons y ys ih =>
      rw [insertK]
      by_cases h : key x ≤ key y
      · rw [if_pos h]
        by_cases hx : key x = t
        · simp [List.filter_cons, hx]
        · simp [List.filter_cons, hx]
      · rw [if_neg h]
        by_cases hy : key y = t
        · have hx : ¬ key x = t := fun hcon => h (le_of_eq (hcon.trans hy.symm))
          simp [List.filter_cons, hy, hx, ih]
        · simp [List.filter_cons, hy, ih]

/-- Stability of the sort: the sublist of elements with any given key value is
unchanged (same elements, same relative order). -/
theorem sortK_filter (key : α → ℚ) (t : ℚ) :
    ∀ l : List α, (sortK key l).filter (fun a => decide (key a = t))
      = l.filter (fun a => decide (key a = t)) := by
  intro l
  induction l with
  | nil => rfl
  | cons x xs ih =>
      rw [sortK, insertK_filter, List.filter_cons]
      by_cases hx : key x = t
      · rw [if_pos hx, if_pos (by simp [hx]), ih]
      · rw [if_neg hx, if_neg (by simp [hx]), ih]

theorem insertK_pairwise_of (key : α → ℚ) (S : α → α → Prop) (x : α) :
    ∀ l : List α,
      (∀ z ∈ l, S x z) →
      l.Pairwise (fun a b => key a < key b ∨ S a b) →
      (insertK key x l).Pairwise (fun a b => key a < key b ∨ S a b) := by
  intro l
  induction l with
  | nil => intro _ _; exact List.pairwise_singleton _ _
  | cons y ys ih =>
      intro hS hp
      rw [List.pairwise_cons] at hp
      obtain ⟨hy, hys⟩ := hp
      rw [insertK]
      by_cases h : key x ≤ key y
      · rw [if_pos h, List.pairwise_cons]
        refine ⟨?_, ?_⟩
        · intro z hz
          rcases List.mem_cons.mp hz with rfl | hz'
          · exact Or.inr (hS _ (List.mem_cons_self _ _))
          · exact Or.inr (hS z (List.mem_cons_of_mem _ hz'))
        · rw [List.pairwise_cons]
          exact ⟨hy, hys⟩
      · rw [if_neg h, List.pairwise_cons]
        refine ⟨?_, ih (fun z hz => hS z (List.mem_cons_of_mem _ hz)) hys⟩
        intro z hz
        rcases (mem_insertK key x z ys).mp hz with rfl | hz'
        · exact Or.inl (not_le.mp h)
        · exact hy z hz'

/-- The stable sort only reorders across strictly different keys: every pair
relation `S` holding pairwise on the input still holds on the output wherever
the keys are equal. -/
theorem sortK_pairwise_of (key : α → ℚ) (S : α → α → Prop) :
    ∀ l : List α, l.Pairwise S →
      (sortK key l).Pairwise (fun a b => key a < key b ∨ S a b) := by
  intro l
  induction l with
  | nil => intro _; exact List.Pairwise.nil
  | cons x xs ih =>
      intro hp
      rw [List.pairwise_cons] at hp
      obtain ⟨hx, hxs⟩ := hp
      rw [sortK]
      refine insertK_pairwise_of key S x _ ?_ (ih hxs)
      intro z hz
      exact hx z ((mem_sortK key z xs).mp hz)

theorem pairwise_of_mem {R : α → α → Prop} :
    ∀ l : List α, (∀ a ∈ l, ∀ b ∈ l, R a b) → l.Pairwise R := by
  intro l
  induction l with
  | nil => intro _; exact List.Pairwise.nil
  | cons x xs ih =>
      intro h
      refine List.Pairwise.cons ?_ (ih ?_)
      · intro z hz
        exact h x (List.mem_cons_self _ _) z (List.mem_cons_of_mem _ hz)
      · intro a ha b hb
        exact h a (List.mem_cons_of_mem _ ha) b (List.mem_cons_of_mem _ hb)

theorem tokenizeEventsAux_append (c : Codec) (fuel : ℕ) :
    ∀ (l1 : List Event) (prev : ℚ) (l2 : List Event),
      tokenizeEventsAux c fuel prev (l1 ++ l2)
        = (tokenizeEventsAux c fuel prev l1).bind fun a =>
            (tokenizeEventsAux c fuel (lastTime prev l1) l2).map fun b => a ++ b := by
  intro l1
  induction l1 with
  | nil =>
      intro prev l2
      rw [List.nil_append, lastTime_nil]
      cases h : tokenizeEventsAux c fuel prev l2 <;> simp [tokenizeEventsAux, h]
  | cons e es ih =>
      intro prev l2
      rw [List.cons_append, tokenizeEventsAux, tokenizeEventsAux, lastTime_cons]
      cases htt : tokenizeTimeDistance c fuel (e.time - prev) with
      | none => rfl
      | some tt =>
          simp only [Option.some_bind]
          rw [ih e.time l2]
          cases h2 : tokenizeEventsAux c fuel e.time es with
          | none => rfl
          | some r1 =>
              simp only [Option.some_bind, Option.map_some']
              cases h3 : tokenizeEventsAux c fuel (lastTime e.time es) l2 with
              | none => rfl
              | some r2 =>
                  simp only [Option.map_some', Option.some_bind]
                  simp

/-- C6: the events built by `_notes_to_events` are (i) sorted by time
ascending; (ii) tie-broken so that no ON event precedes an OFF event of the
same time (OFF events were placed first and the sort is stable); (iii) stable:
for every time value, the sublist of events at that time equals the
corresponding sublist of the unsorted `OFF ++ ON` event list, so events of the
same time and kind keep their original relative order; and (iv) `tokenize`
concatenates per-event token blocks in event-list order, so the tokens of an
earlier event (the OFF at a tied time) precede those of a later one (the ON). -/
theorem c6_event_order_tie_break (df : List NoteRow) :
    (notesToEvents df).Pairwise (fun a b => a.time ≤ b.time) ∧
    (notesToEvents df).Pairwise (fun a b =>
      a.time = b.time → ¬(a.kind = EventKind.noteOnK ∧ b.kind = EventKind.noteOffK)) ∧
    (∀ t : ℚ, (notesToEvents df).filter (fun e => decide (e.time = t))
        = (df.map noteOffEvent ++ df.map noteOnEvent).filter (fun e => decide (e.time = t))) ∧
    (∀ (c : Codec) (fuel : ℕ) (prev : ℚ) (l1 l2 : List Event),
        tokenizeEventsAux c fuel prev (l1 ++ l2)
          = (tokenizeEventsAux c fuel prev l1).bind fun a =>
              (tokenizeEventsAux c fuel (lastTime prev l1) l2).map fun b => a ++ b) := by
  refine ⟨sortK_sorted _ _, ?_, fun t => sortK_filter _ t _,
    fun c fuel prev l1 l2 => tokenizeEventsAux_append c fuel l1 prev l2⟩
  have hS : (df.map noteOffEvent ++ df.map noteOnEvent).Pairwise (fun a b =>
      a.time = b.time → ¬(a.kind = EventKind.noteOnK ∧ b.kind = EventKind.noteOffK)) := by
    rw [List.pairwise_append]
    refine ⟨?_, ?_, ?_⟩
    · refine pairwise_of_mem _ ?_
      intro a ha b _
      obtain ⟨r, _, hr⟩ := List.mem_map.mp ha
      intro _ hand
      rw [← hr] at hand
      cases hand.1
    · refine pairwise_of_mem _ ?_
      intro a _ b hb
      obtain ⟨r, _, hr⟩ := List.mem_map.mp hb
      intro _ hand
      rw [← hr] at hand
      cases hand.2
    · intro a ha b _
      obtain ⟨r, _, hr⟩ := List.mem_map.mp ha
      intro _ hand
      rw [← hr] at hand
      cases hand.1
  have h := sortK_pairwise_of (fun e => e.time) _ _ hS
  refine h.imp ?_
  intro a b hab heq hand
  rcases hab with hlt | hS'
  · have hlt' : a.time < b.time := hlt
    exact absurd heq (ne_of_lt hlt')
  · exact hS' heq hand

/-- Witness instantiation for C6 at a concrete two-note collection in which
one note's OFF and the other's ON coincide in time. -/
theorem c6_event_order_tie_break_witness :
    (notesToEvents (quantizeFrame codecQ
        [{ pitch := 60, start := 0, noteEnd := 1, velocity := 64, velocityBin := none },
         { pitch := 64, start := 1, noteEnd := 2, velocity := 80, velocityBin := none }])).Pairwise
      (fun a b => a.time = b.time → ¬(a.kind = EventKind.noteOnK ∧ b.kind = EventKind.noteOffK)) :=
  (c6_event_order_tie_break (quantizeFrame codecQ
    [{ pitch := 60, start := 0, noteEnd := 1, velocity := 64, velocityBin := none },
     { pitch := 64, start := 1, noteEnd := 2, velocity := 80, velocityBin := none }])).2.1

end MidiQuantizers
